import Mathlib

/-!
Verification of the Minesweeper knowledge-base inference engine in
src/buscaminas/minesweeper.py.

Cells are integer pairs (Python tuples of ints).  A Python `Sentence` is a
mutable object holding a set of cells and an integer count; the AI state holds
the lists and sets of the `MinesweeperAI` class.  Because the subset-resolution
pass of `add_knowledge` distinguishes object identity (`is`) from structural
equality (`__eq__`) while mutating the list it iterates over, knowledge entries
carry an identity tag `tid`: the Python list never contains the same object at
two positions (only freshly constructed sentences are appended), so two
entries alias exactly when their tags coincide.

Loops whose iteration count Python does not bound syntactically (the nested
subset-resolution scan, which appends to the list it walks, and the rejection
sampling loop of `make_random_move`) take a fuel argument and return `none`
when the fuel runs out, so a returned `some` value is exactly the result of
the Python execution.
-/

abbrev Cell := Int × Int

/-- A logical sentence: a set of board cells and the number of mines among
them.  Mirrors class `Sentence`; `__eq__` is structural equality of the cell
set and the count, which is definitional equality here. -/
structure Sentence where
  cells : Finset Cell
  count : Int

instance : DecidableEq Sentence := fun a b =>
  decidable_of_iff (a.cells = b.cells ∧ a.count = b.count)
    (by cases a; cases b; simp)

/-- Sentence.known_mines: the full cell set when `count == len(cells)`,
otherwise `None`. -/
def Sentence.known_mines (s : Sentence) : Option (Finset Cell) :=
  if s.count = (s.cells.card : Int) then some s.cells else none

/-- Sentence.known_safes: the full cell set when `count == 0`,
otherwise `None`. -/
def Sentence.known_safes (s : Sentence) : Option (Finset Cell) :=
  if s.count = 0 then some s.cells else none

/-- Sentence.mark_mine: remove the cell and decrement the count when the cell
is a member; otherwise leave the sentence unchanged. -/
def Sentence.mark_mine (s : Sentence) (c : Cell) : Sentence :=
  if c ∈ s.cells then { cells := s.cells.erase c, count := s.count - 1 } else s

/-- Sentence.mark_safe: remove the cell when it is a member, count unchanged;
otherwise leave the sentence unchanged. -/
def Sentence.mark_safe (s : Sentence) (c : Cell) : Sentence :=
  if c ∈ s.cells then { cells := s.cells.erase c, count := s.count } else s

/-- A knowledge-base entry: a sentence together with an identity tag standing
for Python object identity. -/
structure Tagged where
  tid : Nat
  s : Sentence

instance : DecidableEq Tagged := fun a b =>
  decidable_of_iff (a.tid = b.tid ∧ a.s = b.s)
    (by cases a; cases b; simp)

/-- The state of class `MinesweeperAI`: board dimensions, the three derived
cell sets, the ordered knowledge base, and the next fresh identity tag. -/
structure MinesweeperAI where
  height : Nat
  width : Nat
  moves_made : Finset Cell
  mines : Finset Cell
  safes : Finset Cell
  knowledge : List Tagged
  nextId : Nat

instance : DecidableEq MinesweeperAI := fun a b =>
  decidable_of_iff (a.height = b.height ∧ a.width = b.width ∧
      a.moves_made = b.moves_made ∧ a.mines = b.mines ∧ a.safes = b.safes ∧
      a.knowledge = b.knowledge ∧ a.nextId = b.nextId)
    (by cases a; cases b; simp)

/-- MinesweeperAI.__init__: empty sets, empty knowledge list. -/
def MinesweeperAI.start (height width : Nat) : MinesweeperAI :=
  { height := height, width := width, moves_made := ∅, mines := ∅, safes := ∅,
    knowledge := [], nextId := 0 }

/-- MinesweeperAI.mark_mine: add the cell to the confirmed-mine set and apply
Sentence.mark_mine to every sentence in the knowledge base. -/
def MinesweeperAI.mark_mine (ai : MinesweeperAI) (c : Cell) : MinesweeperAI :=
  { ai with mines := insert c ai.mines,
            knowledge := ai.knowledge.map (fun o => { o with s := o.s.mark_mine c }) }

/-- MinesweeperAI.mark_safe: add the cell to the confirmed-safe set and apply
Sentence.mark_safe to every sentence in the knowledge base. -/
def MinesweeperAI.mark_safe (ai : MinesweeperAI) (c : Cell) : MinesweeperAI :=
  { ai with safes := insert c ai.safes,
            knowledge := ai.knowledge.map (fun o => { o with s := o.s.mark_safe c }) }

/-- The 8 grid-adjacent coordinates of a cell, in the order of the Python
double loop over rows `cell[0]-1 .. cell[0]+1` and columns
`cell[1]-1 .. cell[1]+1`, with the cell itself skipped. -/
def neighborsList (cell : Cell) : List Cell :=
  [(cell.1 - 1, cell.2 - 1), (cell.1 - 1, cell.2), (cell.1 - 1, cell.2 + 1),
   (cell.1, cell.2 - 1), (cell.1, cell.2 + 1),
   (cell.1 + 1, cell.2 - 1), (cell.1 + 1, cell.2), (cell.1 + 1, cell.2 + 1)]

/-- The bounds check `0 <= i < height and 0 <= j < width`. -/
abbrev inBounds (height width : Nat) (c : Cell) : Prop :=
  0 ≤ c.1 ∧ c.1 < (height : Int) ∧ 0 ≤ c.2 ∧ c.2 < (width : Int)

/-- Minesweeper.nearby_mines: the number of in-bounds neighbors of a cell that
hold a mine, for a board whose mine locations are the finite set `M`. -/
def nearby_mines (height width : Nat) (M : Finset Cell) (cell : Cell) : Int :=
  (((neighborsList cell).filter
      (fun n => decide (inBounds height width n ∧ n ∈ M))).length : Int)

/-- One neighbor step of part 3 of add_knowledge: an in-bounds neighbor is
added to the new sentence when it is neither a made move nor a known mine;
a known mine instead decrements the working count. -/
def buildStep (moves mines : Finset Cell) (height width : Nat)
    (acc : Finset Cell × Int) (n : Cell) : Finset Cell × Int :=
  if inBounds height width n then
    if n ∉ moves ∧ n ∉ mines then (insert n acc.1, acc.2)
    else if n ∈ mines then (acc.1, acc.2 - 1)
    else acc
  else acc

/-- Part 3 of add_knowledge: build the new sentence from the neighborhood of
the probed cell and the reported count. -/
def buildSentence (ai : MinesweeperAI) (cell : Cell) (count : Int) : Sentence :=
  let r := (neighborsList cell).foldl
    (buildStep ai.moves_made ai.mines ai.height ai.width) (∅, count)
  { cells := r.1, count := r.2 }

/-- A linear order on cells used to walk a Python set in a canonical order
(Python set iteration order is unspecified; the marking operations performed
while walking commute, so any order is faithful). -/
def cellLe (a b : Cell) : Prop := a.1 < b.1 ∨ (a.1 = b.1 ∧ a.2 ≤ b.2)

instance : DecidableRel cellLe := fun a b => by unfold cellLe; infer_instance

instance : IsTrans Cell cellLe :=
  ⟨by intro a b c h1 h2; unfold cellLe at *; omega⟩

instance : IsAntisymm Cell cellLe :=
  ⟨by intro a b h1 h2
      unfold cellLe at *
      have h3 : a.1 = b.1 ∧ a.2 = b.2 := by omega
      exact Prod.ext h3.1 h3.2⟩

instance : IsTotal Cell cellLe := ⟨by intro a b; unfold cellLe; omega⟩

/-- A canonical list of the elements of a finite cell set (insertion sort, so
that the list computes by structural recursion). -/
def cellsList (s : Finset Cell) : List Cell :=
  Quot.liftOn s.val (List.insertionSort cellLe) (fun a b h =>
    List.eq_of_perm_of_sorted
      ((List.perm_insertionSort cellLe a).trans
        (h.trans (List.perm_insertionSort cellLe b).symm))
      (List.sorted_insertionSort cellLe a) (List.sorted_insertionSort cellLe b))

/-- Call MinesweeperAI.mark_safe on each cell of a snapshot. -/
def markAllSafe (ai : MinesweeperAI) (cs : List Cell) : MinesweeperAI :=
  cs.foldl MinesweeperAI.mark_safe ai

/-- Call MinesweeperAI.mark_mine on each cell of a snapshot. -/
def markAllMine (ai : MinesweeperAI) (cs : List Cell) : MinesweeperAI :=
  cs.foldl MinesweeperAI.mark_mine ai

/-- The known_safes half of one iteration of part 4 of add_knowledge: when
the known_safes set of the scanned sentence is non-empty (Python truthiness
of `if safes:`), mark every cell of a snapshot of it safe.  The sentence at
the scanned index is then re-read mutated before its known_mines are
queried; the list structure is untouched by part 4, only sentence contents
change, so fuel equal to the list length covers the whole Python loop. -/
def step4Safes (ai : MinesweeperAI) (o : Tagged) : MinesweeperAI :=
  match o.s.known_safes with
  | some cs => if cs = ∅ then ai else markAllSafe ai (cellsList cs)
  | none => ai

/-- The known_mines half of one iteration of part 4: Python truthiness of
`if mines:` followed by marking a snapshot of the reported cells. -/
def step4Mines (ai : MinesweeperAI) (o : Tagged) : MinesweeperAI :=
  match o.s.known_mines with
  | some cs => if cs = ∅ then ai else markAllMine ai (cellsList cs)
  | none => ai

/-- Part 4 of add_knowledge from list index `i` on, one iteration per fuel
unit. -/
def step4Go (ai : MinesweeperAI) (i : Nat) (fuel : Nat) : MinesweeperAI :=
  match fuel with
  | 0 => ai
  | fuel + 1 =>
    match ai.knowledge[i]? with
    | none => ai
    | some o =>
      let ai1 := step4Safes ai o
      match ai1.knowledge[i]? with
      | none => ai1
      | some o2 => step4Go (step4Mines ai1 o2) (i + 1) fuel

/-- Part 4 of add_knowledge: propagate known_safes / known_mines over the
whole knowledge list. -/
def step4 (ai : MinesweeperAI) : MinesweeperAI :=
  step4Go ai 0 ai.knowledge.length

/-- Python `list.remove(x)`: delete the first element structurally equal to
the given sentence (comparison uses `Sentence.__eq__`). -/
def removeFirstEq (s : Sentence) : List Tagged → List Tagged
  | [] => []
  | o :: rest => if o.s = s then rest else o :: removeFirstEq s rest

/-- Python `x in knowledge` for a sentence `x`: structural membership. -/
def containsSentence (kn : List Tagged) (s : Sentence) : Bool :=
  kn.any (fun o => o.s == s)

/-- The inner `for sentence2 in self.knowledge` loop of part 5 of
add_knowledge, iterating by index `j` over the live list: `continue` when
`sentence1 is sentence2` (same tag); when structurally equal, remove the
first structural duplicate and move on (the iterator index is not adjusted,
so the element after the removal point is skipped, exactly as in CPython);
when `sentence1.cells ⊆ sentence2.cells`, append the derived difference
sentence with a fresh tag unless a structurally equal sentence is present. -/
def step5Inner (s1 : Tagged) (kn : List Tagged) (nid j fuel : Nat) :
    Option (List Tagged × Nat) :=
  match fuel with
  | 0 => none
  | fuel + 1 =>
    match kn[j]? with
    | none => some (kn, nid)
    | some s2 =>
      if s1.tid = s2.tid then step5Inner s1 kn nid (j + 1) fuel
      else if s1.s = s2.s then step5Inner s1 (removeFirstEq s2.s kn) nid (j + 1) fuel
      else if s1.s.cells ⊆ s2.s.cells then
        let nk : Sentence :=
          { cells := s2.s.cells \ s1.s.cells, count := s2.s.count - s1.s.count }
        if containsSentence kn nk then step5Inner s1 kn nid (j + 1) fuel
        else step5Inner s1 (kn ++ [{ tid := nid, s := nk }]) (nid + 1) (j + 1) fuel
      else step5Inner s1 kn nid (j + 1) fuel

/-- The outer `for sentence1 in self.knowledge` loop of part 5 of
add_knowledge, iterating by index `i` over the live list (which the inner
loop may shrink and extend). -/
def step5Outer (kn : List Tagged) (nid i fuel : Nat) :
    Option (List Tagged × Nat) :=
  match fuel with
  | 0 => none
  | fuel + 1 =>
    match kn[i]? with
    | none => some (kn, nid)
    | some s1 =>
      match step5Inner s1 kn nid 0 fuel with
      | none => none
      | some (kn2, nid2) => step5Outer kn2 nid2 (i + 1) fuel

/-- Parts 1 and 2 of add_knowledge: record the move and mark the probed cell
safe. -/
def ingestRecord (ai : MinesweeperAI) (cell : Cell) : MinesweeperAI :=
  ({ ai with moves_made := insert cell ai.moves_made }).mark_safe cell

/-- Part 3 of add_knowledge: append the neighborhood sentence, with a fresh
identity tag. -/
def ingestAppend (ai : MinesweeperAI) (cell : Cell) (count : Int) : MinesweeperAI :=
  { ai with
    knowledge := ai.knowledge ++ [{ tid := ai.nextId, s := buildSentence ai cell count }],
    nextId := ai.nextId + 1 }

/-- Part 5 of add_knowledge: run the subset-resolution pass over the
knowledge list and store the result. -/
def ingestResolve (ai : MinesweeperAI) (fuel : Nat) : Option MinesweeperAI :=
  match step5Outer ai.knowledge ai.nextId 0 fuel with
  | none => none
  | some (kn, nid) => some { ai with knowledge := kn, nextId := nid }

/-- MinesweeperAI.add_knowledge: record the move, mark the probed cell safe,
append the neighborhood sentence, run the propagation pass, then run the
subset-resolution pass.  Returns `none` only when the fuel for part 5 is
insufficient. -/
def MinesweeperAI.add_knowledge (ai : MinesweeperAI) (cell : Cell) (count : Int)
    (fuel : Nat) : Option MinesweeperAI :=
  ingestResolve (step4 (ingestAppend (ingestRecord ai cell) cell count)) fuel

/-- MinesweeperAI.make_safe_move: an arbitrary member (chosen by the random
oracle `pick`) of `safes - moves_made` when that set is non-empty, else
`None`; paired with the resulting AI state (the method body assigns no
attribute, so the state is returned unchanged). -/
def MinesweeperAI.make_safe_move (ai : MinesweeperAI)
    (pick : Finset Cell → Cell) : Option Cell × MinesweeperAI :=
  let available_steps := ai.safes \ ai.moves_made
  if available_steps.Nonempty then (some (pick available_steps), ai) else (none, ai)

/-- One draw of the rejection-sampling loop of make_random_move: a row and a
column (the oracle value reduced modulo the dimensions models
`random.randrange`, which errors out on a zero bound; that error is merged
into the `none` outcome of the loop together with running out of fuel). -/
def sampledCell (ai : MinesweeperAI) (rand : Nat → Nat × Nat) (k : Nat) : Cell :=
  ((((rand k).1 % ai.height : Nat) : Int), (((rand k).2 % ai.width : Nat) : Int))

/-- The `while True` rejection-sampling loop body of make_random_move. -/
def randomLoop (ai : MinesweeperAI) (rand : Nat → Nat × Nat) (k fuel : Nat) :
    Option Cell :=
  match fuel with
  | 0 => none
  | fuel + 1 =>
    if ai.height = 0 ∨ ai.width = 0 then none
    else if sampledCell ai rand k ∉ ai.moves_made ∧ sampledCell ai rand k ∉ ai.mines
      then some (sampledCell ai rand k)
      else randomLoop ai rand (k + 1) fuel

/-- MinesweeperAI.make_random_move: `None` (modeled `some none`) when
`len(mines) + len(moves_made) == height * width`, otherwise sample until a
cell outside moves_made and mines is found; `none` stands for a Python run
that has not returned (loop fuel exhausted or a randrange error).  Paired
with the resulting AI state, unchanged by the method body. -/
def MinesweeperAI.make_random_move (ai : MinesweeperAI)
    (rand : Nat → Nat × Nat) (fuel : Nat) :
    Option (Option Cell) × MinesweeperAI :=
  if ai.mines.card + ai.moves_made.card = ai.height * ai.width then (some none, ai)
  else
    match randomLoop ai rand 0 fuel with
    | none => (none, ai)
    | some c => (some (some c), ai)

/-- States of the engine reachable by the caller contract of the spec: from a
fresh engine, `add_knowledge` is called only for in-bounds, not-yet-probed
cells that are truly safe on the board `M`, with the true neighbor-mine count;
the global mark operations are called only with the corresponding ground
truth.  This is the reachability used by claims that quantify over ingest,
global mark_mine and global mark_safe calls. -/
inductive Reachable (height width : Nat) (M : Finset Cell) : MinesweeperAI → Prop where
  | start : Reachable height width M (MinesweeperAI.start height width)
  | ingest {ai ai2 : MinesweeperAI} {cell : Cell} {fuel : Nat} :
      Reachable height width M ai →
      inBounds height width cell →
      cell ∉ ai.moves_made →
      cell ∉ M →
      ai.add_knowledge cell (nearby_mines height width M cell) fuel = some ai2 →
      Reachable height width M ai2
  | mark_mine {ai : MinesweeperAI} {c : Cell} :
      Reachable height width M ai → c ∈ M → Reachable height width M (ai.mark_mine c)
  | mark_safe {ai : MinesweeperAI} {c : Cell} :
      Reachable height width M ai → c ∉ M → Reachable height width M (ai.mark_safe c)

/-- As `Reachable`, but allowing contract-respecting `add_knowledge` calls
only, for claims that quantify over sequences of ingest calls. -/
inductive ReachableIngest (height width : Nat) (M : Finset Cell) : MinesweeperAI → Prop where
  | start : ReachableIngest height width M (MinesweeperAI.start height width)
  | ingest {ai ai2 : MinesweeperAI} {cell : Cell} {fuel : Nat} :
      ReachableIngest height width M ai →
      inBounds height width cell →
      cell ∉ ai.moves_made →
      cell ∉ M →
      ai.add_knowledge cell (nearby_mines height width M cell) fuel = some ai2 →
      ReachableIngest height width M ai2

/-- The mine set of the 2×3 board used to exhibit an engine state whose
knowledge base holds a sentence containing a confirmed-safe cell. -/
def c4board : Finset Cell := {((0:Int), (2:Int))}

/-- First probe of the 2×3 scenario: cell (0,0), true count 0. -/
def c4st1 : MinesweeperAI :=
  ((MinesweeperAI.start 2 3).add_knowledge (0, 0)
      (nearby_mines 2 3 c4board (0, 0)) 100).getD (MinesweeperAI.start 2 3)

/-- Second probe of the 2×3 scenario: cell (1,1), true count 1.  Its new
sentence keeps the confirmed-safe, never-probed neighbors (0,1) and (1,0). -/
def c4st2 : MinesweeperAI :=
  (c4st1.add_knowledge (1, 1) (nearby_mines 2 3 c4board (1, 1)) 100).getD c4st1

/-- The mine set of the 3×3 board used for the subset-resolution scenarios:
mines at (1,1) and (2,0). -/
def c1board : Finset Cell := {((1:Int), (1:Int)), ((2:Int), (0:Int))}

/-- The 3×3 probing sequence (0,0), (0,2), (2,2), (1,0), (1,2) with true
counts on `c1board`, one state per call.  The fourth call places the sentence
B with cells (0,1),(1,1),(2,0),(2,1) and count 2; the fifth places A with
cells (0,1),(1,1),(2,1) and count 1, whose subset-resolution pass derives the
singleton sentence (2,0) with count 1. -/
def c1st1 : MinesweeperAI :=
  ((MinesweeperAI.start 3 3).add_knowledge (0, 0)
      (nearby_mines 3 3 c1board (0, 0)) 300).getD (MinesweeperAI.start 3 3)

/-- Second state of the 3×3 subset-resolution sequence. -/
def c1st2 : MinesweeperAI :=
  (c1st1.add_knowledge (0, 2) (nearby_mines 3 3 c1board (0, 2)) 300).getD c1st1

/-- Third state of the 3×3 subset-resolution sequence. -/
def c1st3 : MinesweeperAI :=
  (c1st2.add_knowledge (2, 2) (nearby_mines 3 3 c1board (2, 2)) 300).getD c1st2

/-- Fourth state of the 3×3 subset-resolution sequence. -/
def c1st4 : MinesweeperAI :=
  (c1st3.add_knowledge (1, 0) (nearby_mines 3 3 c1board (1, 0)) 300).getD c1st3

/-- Fifth state of the 3×3 subset-resolution sequence: sentences A, B and the
derived singleton are all in the knowledge base, but no mine is confirmed. -/
def c1st5 : MinesweeperAI :=
  (c1st4.add_knowledge (1, 2) (nearby_mines 3 3 c1board (1, 2)) 300).getD c1st4

/-- One further probe, cell (0,1): its propagation pass scans the derived
singleton sentence and confirms (2,0) as a mine. -/
def c1st6 : MinesweeperAI :=
  (c1st5.add_knowledge (0, 1) (nearby_mines 3 3 c1board (0, 1)) 300).getD c1st5

/-- The mine set of the 3×3 board used to exhibit surviving duplicates:
mines at (1,1) and (2,2). -/
def c6board : Finset Cell := {((1:Int), (1:Int)), ((2:Int), (2:Int))}

/-- The 3×3 probing sequence (0,0), (0,2), (2,0), (0,1), (2,1) with true
counts on `c6board`, one state per call. -/
def c6st1 : MinesweeperAI :=
  ((MinesweeperAI.start 3 3).add_knowledge (0, 0)
      (nearby_mines 3 3 c6board (0, 0)) 300).getD (MinesweeperAI.start 3 3)

/-- Second state of the 3×3 duplicate scenario. -/
def c6st2 : MinesweeperAI :=
  (c6st1.add_knowledge (0, 2) (nearby_mines 3 3 c6board (0, 2)) 300).getD c6st1

/-- Third state of the 3×3 duplicate scenario. -/
def c6st3 : MinesweeperAI :=
  (c6st2.add_knowledge (2, 0) (nearby_mines 3 3 c6board (2, 0)) 300).getD c6st2

/-- Fourth state of the 3×3 duplicate scenario. -/
def c6st4 : MinesweeperAI :=
  (c6st3.add_knowledge (0, 1) (nearby_mines 3 3 c6board (0, 1)) 300).getD c6st3

/-- Fifth state of the 3×3 duplicate scenario: the final call collapses every
sentence to the empty sentence with count 0, and the subset-resolution scan,
removing elements of the list it is indexing into, terminates with two
structurally equal sentences left at positions 0 and 1. -/
def c6st5 : MinesweeperAI :=
  (c6st4.add_knowledge (2, 1) (nearby_mines 3 3 c6board (2, 1)) 300).getD c6st4

/-- The one-probe state on the 3×3 board with a mine at (1,1) used to witness
the invariant claims: its knowledge base is the single sentence with cells
(0,1),(1,0),(1,1) and count 1. -/
def wit1board : Finset Cell := {((1:Int), (1:Int))}

/-- The state after probing (0,0) on the `wit1board` board. -/
def wit1st : MinesweeperAI :=
  ((MinesweeperAI.start 3 3).add_knowledge (0, 0)
      (nearby_mines 3 3 wit1board (0, 0)) 100).getD (MinesweeperAI.start 3 3)

/-- The 1×2 one-probe state used to witness the disjointness claim: after
ingesting (0,0) with true count 1, the confirmed sets are nonempty. -/
def wit2st : MinesweeperAI :=
  ((MinesweeperAI.start 1 2).add_knowledge (0, 0)
      (nearby_mines 1 2 {((0:Int), (1:Int))} (0, 0)) 100).getD (MinesweeperAI.start 1 2)

/-- A sentence is truthful for the mine set `M` when its count equals the
number of its cells that are mines of `M`. -/
def SentenceSound (M : Finset Cell) (s : Sentence) : Prop :=
  s.count = ((s.cells ∩ M).card : Int)

/-- Soundness of an engine state for a board: the dimensions match, every
held sentence is truthful, every confirmed mine is a mine of the board, and
no confirmed-safe or probed cell is a mine.  This is the inductive invariant
behind the count-bound and disjointness claims. -/
structure SoundState (height width : Nat) (M : Finset Cell) (ai : MinesweeperAI) : Prop where
  height_eq : ai.height = height
  width_eq : ai.width = width
  kb : ∀ o ∈ ai.knowledge, SentenceSound M o.s
  mines_sub : ai.mines ⊆ M
  safes_not : ∀ c ∈ ai.safes, c ∉ M
  moves_not : ∀ c ∈ ai.moves_made, c ∉ M

/-- No sentence of the knowledge base mentions a confirmed mine. -/
def KnowledgeMinesFree (ai : MinesweeperAI) : Prop :=
  ∀ o ∈ ai.knowledge, ∀ c ∈ o.s.cells, c ∉ ai.mines

/-- Sentence.mark_safe is idempotent. -/
theorem Sentence.mark_safe_idem (s : Sentence) (c : Cell) :
    (s.mark_safe c).mark_safe c = s.mark_safe c := by
  unfold Sentence.mark_safe
  by_cases h : c ∈ s.cells
  · simp [h, Finset.not_mem_erase]
  · simp [h]

/-- C2: on a 1×2 board with exactly one mine at (0,1), a fresh engine that
ingests cell (0,0) with its true neighbor-mine count 1 ends, after that
single call, with (0,1) in the confirmed-mine set. -/
theorem ingest_confirms_mine_on_1x2 :
    nearby_mines 1 2 {((0:Int), (1:Int))} (0, 0) = 1 ∧
    ∃ st, (MinesweeperAI.start 1 2).add_knowledge (0, 0)
        (nearby_mines 1 2 {((0:Int), (1:Int))} (0, 0)) 100 = some st ∧
      ((0:Int), (1:Int)) ∈ st.mines := by
  exact ⟨by decide, wit2st, by decide, by decide⟩

/-- C7: Sentence.mark_mine removes a member cell and decrements the count by
one, leaving nothing else changed, and is a no-op on a non-member cell. -/
theorem mark_mine_member_spec (s : Sentence) (c : Cell) :
    (c ∈ s.cells → s.mark_mine c = { cells := s.cells.erase c, count := s.count - 1 }) ∧
    (c ∉ s.cells → s.mark_mine c = s) := by
  constructor
  · intro h; simp [Sentence.mark_mine, h]
  · intro h; simp [Sentence.mark_mine, h]

/-- Witness for C7 at a concrete sentence: marking a member removes it and
decrements the count; marking a non-member changes nothing. -/
theorem mark_mine_member_spec_witness :
    (Sentence.mk {((0:Int), (0:Int)), ((1:Int), (1:Int))} 1).mark_mine (0, 0)
        = { cells := ({((0:Int), (0:Int)), ((1:Int), (1:Int))} : Finset Cell).erase (0, 0),
            count := 0 } ∧
    (Sentence.mk {((0:Int), (0:Int))} 1).mark_mine (5, 5)
        = Sentence.mk {((0:Int), (0:Int))} 1 := by
  constructor
  · exact (mark_mine_member_spec (Sentence.mk {((0:Int), (0:Int)), ((1:Int), (1:Int))} 1)
      (0, 0)).1 (by decide)
  · exact (mark_mine_member_spec (Sentence.mk {((0:Int), (0:Int))} 1) (5, 5)).2 (by decide)

/-- C9: the engine-level mark_safe is idempotent: a second identical call
leaves the whole state, in particular the confirmed-safe set, unchanged. -/
theorem mark_safe_idempotent (ai : MinesweeperAI) (c : Cell) :
    (ai.mark_safe c).mark_safe c = ai.mark_safe c := by
  simp [MinesweeperAI.mark_safe, List.map_map, Function.comp,
    Sentence.mark_safe_idem, Finset.insert_idem]

/-- C10: make_safe_move and make_random_move do not modify the engine state:
the state they return is the input state. -/
theorem move_selectors_leave_state_unchanged (ai : MinesweeperAI)
    (pick : Finset Cell → Cell) (rand : Nat → Nat × Nat) (fuel : Nat) :
    (ai.make_safe_move pick).2 = ai ∧ (ai.make_random_move rand fuel).2 = ai := by
  constructor
  · by_cases h : (ai.safes \ ai.moves_made).Nonempty <;>
      simp [MinesweeperAI.make_safe_move, h]
  · unfold MinesweeperAI.make_random_move
    split
    · rfl
    · cases h : randomLoop ai rand 0 fuel <;> simp [h]


/-- The two-probe 2×3 scenario is reachable under the caller contract. -/
theorem c4st2_reachable : ReachableIngest 2 3 c4board c4st2 :=
  @ReachableIngest.ingest 2 3 c4board c4st1 c4st2 (1, 1) 100
    (@ReachableIngest.ingest 2 3 c4board (MinesweeperAI.start 2 3) c4st1 (0, 0) 100
      ReachableIngest.start (by decide) (by decide) (by decide) (by decide))
    (by decide) (by decide) (by decide) (by decide)

/-- C4 fails on the code: in the contract-respecting reachable state `c4st2`
the knowledge base holds a sentence one of whose cells, (0,1), is in the
confirmed-safe set (the neighborhood builder of add_knowledge filters out
moves already made and confirmed mines, but not confirmed-safe cells). -/
theorem sentence_containing_safe_cell_reachable :
    ReachableIngest 2 3 c4board c4st2 ∧
      ∃ o ∈ c4st2.knowledge, ∃ c ∈ o.s.cells, c ∈ c4st2.safes := by
  refine ⟨c4st2_reachable, ⟨1, ⟨{((0:Int), (1:Int)), ((0:Int), (2:Int)),
    ((1:Int), (0:Int)), ((1:Int), (2:Int))}, 1⟩⟩, by decide, (0, 1), by decide, by decide⟩

/-- The five-probe 3×3 subset-resolution scenario is reachable under the
caller contract. -/
theorem c1st5_reachable : ReachableIngest 3 3 c1board c1st5 :=
  @ReachableIngest.ingest 3 3 c1board c1st4 c1st5 (1, 2) 300
    (@ReachableIngest.ingest 3 3 c1board c1st3 c1st4 (1, 0) 300
      (@ReachableIngest.ingest 3 3 c1board c1st2 c1st3 (2, 2) 300
        (@ReachableIngest.ingest 3 3 c1board c1st1 c1st2 (0, 2) 300
          (@ReachableIngest.ingest 3 3 c1board (MinesweeperAI.start 3 3) c1st1 (0, 0) 300
            ReachableIngest.start (by decide) (by decide) (by decide) (by decide))
          (by decide) (by decide) (by decide) (by decide))
        (by decide) (by decide) (by decide) (by decide))
      (by decide) (by decide) (by decide) (by decide))
    (by decide) (by decide) (by decide) (by decide)

/-- C1 fails on the code: the contract-respecting sequence reaching `c1st5`
has placed sentence A with cells (0,1),(1,1),(2,1) and count 1 and sentence
B with cells (0,1),(1,1),(2,0),(2,1) and count 2 in the knowledge base, and
the subset-resolution pass has derived the sentence with cells (2,0) and
count 1; yet (2,0) is not in the confirmed-mine set at the end of the
sequence, because the propagation pass of each call runs before its
subset-resolution pass. -/
theorem derived_singleton_not_marked_same_call :
    ReachableIngest 3 3 c1board c1st5 ∧
    containsSentence c1st5.knowledge
      ⟨{((0:Int), (1:Int)), ((1:Int), (1:Int)), ((2:Int), (1:Int))}, 1⟩ = true ∧
    containsSentence c1st5.knowledge
      ⟨{((0:Int), (1:Int)), ((1:Int), (1:Int)), ((2:Int), (0:Int)),
        ((2:Int), (1:Int))}, 2⟩ = true ∧
    containsSentence c1st5.knowledge ⟨{((2:Int), (0:Int))}, 1⟩ = true ∧
    ((2:Int), (0:Int)) ∉ c1st5.mines :=
  ⟨c1st5_reachable, by decide, by decide, by decide, by decide⟩

/-- C1 amended: with A and B placed in the knowledge base, the
subset-resolution pass derives the sentence with cells (2,0) and count 1,
but cell (2,0) joins the confirmed-mine set only on the next ingest call,
whose propagation pass scans the derived sentence. -/
theorem derived_singleton_confirmed_next_call :
    containsSentence c1st5.knowledge
      ⟨{((0:Int), (1:Int)), ((1:Int), (1:Int)), ((2:Int), (1:Int))}, 1⟩ = true ∧
    containsSentence c1st5.knowledge
      ⟨{((0:Int), (1:Int)), ((1:Int), (1:Int)), ((2:Int), (0:Int)),
        ((2:Int), (1:Int))}, 2⟩ = true ∧
    containsSentence c1st5.knowledge ⟨{((2:Int), (0:Int))}, 1⟩ = true ∧
    ((2:Int), (0:Int)) ∉ c1st5.mines ∧
    c1st5.add_knowledge (0, 1) (nearby_mines 3 3 c1board (0, 1)) 300 = some c1st6 ∧
    ((2:Int), (0:Int)) ∈ c1st6.mines :=
  ⟨by decide, by decide, by decide, by decide, by decide, by decide⟩

/-- The five-probe 3×3 duplicate scenario is reachable under the caller
contract. -/
theorem c6st5_reachable : ReachableIngest 3 3 c6board c6st5 :=
  @ReachableIngest.ingest 3 3 c6board c6st4 c6st5 (2, 1) 300
    (@ReachableIngest.ingest 3 3 c6board c6st3 c6st4 (0, 1) 300
      (@ReachableIngest.ingest 3 3 c6board c6st2 c6st3 (2, 0) 300
        (@ReachableIngest.ingest 3 3 c6board c6st1 c6st2 (0, 2) 300
          (@ReachableIngest.ingest 3 3 c6board (MinesweeperAI.start 3 3) c6st1 (0, 0) 300
            ReachableIngest.start (by decide) (by decide) (by decide) (by decide))
          (by decide) (by decide) (by decide) (by decide))
        (by decide) (by decide) (by decide) (by decide))
      (by decide) (by decide) (by decide) (by decide))
    (by decide) (by decide) (by decide) (by decide)

/-- C6 fails on the code: at the end of the fifth ingest call of the
contract-respecting sequence reaching `c6st5`, the knowledge base holds the
empty sentence with count 0 at both position 0 and position 1 — two distinct
positions with structurally equal sentences survive the subset-resolution
pass, because removing list elements while indexing into the list skips
entries. -/
theorem duplicate_sentences_survive_resolution :
    ReachableIngest 3 3 c6board c6st5 ∧
    c6st5.knowledge.map Tagged.s = [⟨∅, 0⟩, ⟨∅, 0⟩] :=
  ⟨c6st5_reachable, by decide⟩

/-- Membership in the canonical list of a finite cell set. -/
theorem mem_cellsList {s : Finset Cell} {c : Cell} : c ∈ cellsList s ↔ c ∈ s := by
  rcases s with ⟨val, nd⟩
  induction val using Quot.inductionOn with
  | _ l =>
    show c ∈ List.insertionSort cellLe l ↔ _
    rw [(List.perm_insertionSort cellLe l).mem_iff]
    rfl

/-- The eight neighbor coordinates of a cell are pairwise distinct. -/
theorem neighborsList_nodup (cell : Cell) : (neighborsList cell).Nodup := by
  simp [neighborsList, List.nodup_cons, Prod.ext_iff]
  omega

/-- Elements surviving a first-match removal were in the original list. -/
theorem removeFirstEq_subset {s : Sentence} :
    ∀ {kn : List Tagged} {o : Tagged}, o ∈ removeFirstEq s kn → o ∈ kn := by
  intro kn
  induction kn with
  | nil => intro o h; exact absurd h (by simp [removeFirstEq])
  | cons hd tl ih =>
    intro o h
    unfold removeFirstEq at h
    by_cases hh : hd.s = s
    · simp only [if_pos hh] at h
      exact List.mem_cons_of_mem hd h
    · simp only [if_neg hh] at h
      rcases List.mem_cons.mp h with h1 | h2
      · exact h1 ▸ List.mem_cons_self hd tl
      · exact List.mem_cons_of_mem hd (ih h2)

/-- First-match removal yields a sublist. -/
theorem removeFirstEq_sublist (s : Sentence) :
    ∀ kn : List Tagged, (removeFirstEq s kn).Sublist kn := by
  intro kn
  induction kn with
  | nil => simp [removeFirstEq]
  | cons hd tl ih =>
    unfold removeFirstEq
    by_cases hh : hd.s = s
    · simp only [if_pos hh]
      exact List.sublist_cons_self hd tl
    · simpa [hh] using ih

/-- Sentence.mark_safe never adds cells. -/
theorem Sentence.mark_safe_cells_subset (s : Sentence) (c : Cell) :
    (s.mark_safe c).cells ⊆ s.cells := by
  unfold Sentence.mark_safe
  by_cases h : c ∈ s.cells <;> simp [h, Finset.erase_subset]

/-- Sentence.mark_mine never adds cells. -/
theorem Sentence.mark_mine_cells_subset (s : Sentence) (c : Cell) :
    (s.mark_mine c).cells ⊆ s.cells := by
  unfold Sentence.mark_mine
  by_cases h : c ∈ s.cells <;> simp [h, Finset.erase_subset]

/-- The marked cell is gone after Sentence.mark_mine. -/
theorem Sentence.not_mem_mark_mine (s : Sentence) (c : Cell) :
    c ∉ (s.mark_mine c).cells := by
  unfold Sentence.mark_mine
  by_cases h : c ∈ s.cells <;> simp [h]

/-- Sentence.mark_safe of a non-mine cell preserves truthfulness. -/
theorem sentence_sound_mark_safe {M : Finset Cell} {s : Sentence} (c : Cell)
    (hc : c ∉ M) (hs : SentenceSound M s) : SentenceSound M (s.mark_safe c) := by
  unfold SentenceSound Sentence.mark_safe at *
  by_cases h : c ∈ s.cells
  · simp only [if_pos h]
    have hrw : s.cells.erase c ∩ M = s.cells ∩ M := by
      rw [Finset.erase_inter]
      exact Finset.erase_eq_of_not_mem (fun hmem => hc (Finset.mem_inter.mp hmem).2)
    rw [hrw]
    exact hs
  · simpa [h] using hs

/-- Sentence.mark_mine of a true mine preserves truthfulness. -/
theorem sentence_sound_mark_mine {M : Finset Cell} {s : Sentence} (c : Cell)
    (hc : c ∈ M) (hs : SentenceSound M s) : SentenceSound M (s.mark_mine c) := by
  unfold SentenceSound Sentence.mark_mine at *
  by_cases h : c ∈ s.cells
  · simp only [if_pos h]
    have hmem : c ∈ s.cells ∩ M := Finset.mem_inter.mpr ⟨h, hc⟩
    have hcard := Finset.card_erase_of_mem hmem
    have hpos : 1 ≤ (s.cells ∩ M).card := Finset.card_pos.mpr ⟨c, hmem⟩
    rw [Finset.erase_inter, hcard]
    omega
  · simpa [h] using hs

/-- The derived difference sentence of the subset-resolution pass is
truthful when both inputs are. -/
theorem SentenceSound.derived {M : Finset Cell} {a b : Sentence}
    (ha : SentenceSound M a) (hb : SentenceSound M b) (hsub : a.cells ⊆ b.cells) :
    SentenceSound M ⟨b.cells \ a.cells, b.count - a.count⟩ := by
  unfold SentenceSound at *
  have hrw : (b.cells \ a.cells) ∩ M = (b.cells ∩ M) \ (a.cells ∩ M) := by
    ext x
    simp only [Finset.mem_inter, Finset.mem_sdiff]
    tauto
  have hss : a.cells ∩ M ⊆ b.cells ∩ M :=
    Finset.inter_subset_inter hsub (Finset.Subset.refl M)
  have hle := Finset.card_le_card hss
  simp only [hrw, Finset.card_sdiff hss]
  omega

/-- A truthful sentence reporting known_safes reports only non-mines. -/
theorem SentenceSound.safes_not_mine {M : Finset Cell} {s : Sentence}
    (hs : SentenceSound M s) {cs : Finset Cell} (h : s.known_safes = some cs) :
    ∀ c ∈ cs, c ∉ M := by
  unfold Sentence.known_safes at h
  by_cases h0 : s.count = 0
  · simp only [if_pos h0] at h
    have hcs : s.cells = cs := Option.some.inj h
    unfold SentenceSound at hs
    rw [h0] at hs
    have hempty : s.cells ∩ M = ∅ := Finset.card_eq_zero.mp (by omega)
    intro c hc hcM
    have hmem : c ∈ s.cells ∩ M := Finset.mem_inter.mpr ⟨hcs ▸ hc, hcM⟩
    simp [hempty] at hmem
  · simp [if_neg h0] at h

/-- A truthful sentence reporting known_mines reports only mines. -/
theorem SentenceSound.mines_sub {M : Finset Cell} {s : Sentence}
    (hs : SentenceSound M s) {cs : Finset Cell} (h : s.known_mines = some cs) :
    ∀ c ∈ cs, c ∈ M := by
  unfold Sentence.known_mines at h
  by_cases h0 : s.count = (s.cells.card : Int)
  · simp only [if_pos h0] at h
    have hcs : s.cells = cs := Option.some.inj h
    unfold SentenceSound at hs
    have heq : s.cells ∩ M = s.cells :=
      Finset.eq_of_subset_of_card_le Finset.inter_subset_left (by omega)
    intro c hc
    have hmem : c ∈ s.cells ∩ M := heq.symm ▸ (hcs ▸ hc)
    exact (Finset.mem_inter.mp hmem).2
  · simp [if_neg h0] at h

/-- Engine mark_safe of a non-mine preserves state soundness. -/
theorem sound_state_mark_safe {h w : Nat} {M : Finset Cell} {ai : MinesweeperAI}
    (c : Cell) (hc : c ∉ M) (hs : SoundState h w M ai) :
    SoundState h w M (ai.mark_safe c) := by
  refine ⟨hs.height_eq, hs.width_eq, ?_, hs.mines_sub, ?_, hs.moves_not⟩
  · intro o ho
    rcases List.mem_map.mp ho with ⟨p, hp, rfl⟩
    exact sentence_sound_mark_safe c hc (hs.kb p hp)
  · intro x hx
    rcases Finset.mem_insert.mp hx with rfl | hx2
    · exact hc
    · exact hs.safes_not x hx2

/-- Engine mark_mine of a true mine preserves state soundness. -/
theorem sound_state_mark_mine {h w : Nat} {M : Finset Cell} {ai : MinesweeperAI}
    (c : Cell) (hc : c ∈ M) (hs : SoundState h w M ai) :
    SoundState h w M (ai.mark_mine c) := by
  refine ⟨hs.height_eq, hs.width_eq, ?_, ?_, hs.safes_not, hs.moves_not⟩
  · intro o ho
    rcases List.mem_map.mp ho with ⟨p, hp, rfl⟩
    exact sentence_sound_mark_mine c hc (hs.kb p hp)
  · exact Finset.insert_subset hc hs.mines_sub

/-- Folding engine mark_safe over non-mine cells preserves soundness. -/
theorem sound_state_markAllSafe {h w : Nat} {M : Finset Cell} :
    ∀ (cs : List Cell) (ai : MinesweeperAI), (∀ c ∈ cs, c ∉ M) →
      SoundState h w M ai → SoundState h w M (markAllSafe ai cs) := by
  intro cs
  induction cs with
  | nil => intro ai _ hs; exact hs
  | cons hd tl ih =>
    intro ai hcs hs
    exact ih (ai.mark_safe hd) (fun c hc => hcs c (List.mem_cons_of_mem hd hc))
      (sound_state_mark_safe hd (hcs hd (List.mem_cons_self hd tl)) hs)

/-- Folding engine mark_mine over true mines preserves soundness. -/
theorem sound_state_markAllMine {h w : Nat} {M : Finset Cell} :
    ∀ (cs : List Cell) (ai : MinesweeperAI), (∀ c ∈ cs, c ∈ M) →
      SoundState h w M ai → SoundState h w M (markAllMine ai cs) := by
  intro cs
  induction cs with
  | nil => intro ai _ hs; exact hs
  | cons hd tl ih =>
    intro ai hcs hs
    exact ih (ai.mark_mine hd) (fun c hc => hcs c (List.mem_cons_of_mem hd hc))
      (sound_state_mark_mine hd (hcs hd (List.mem_cons_self hd tl)) hs)

/-- Engine mark_safe preserves mine-freeness of the knowledge base. -/
theorem mines_free_mark_safe {ai : MinesweeperAI} (c : Cell)
    (h : KnowledgeMinesFree ai) : KnowledgeMinesFree (ai.mark_safe c) := by
  intro o ho x hx
  rcases List.mem_map.mp ho with ⟨p, hp, rfl⟩
  exact h p hp x (Sentence.mark_safe_cells_subset p.s c hx)

/-- Engine mark_mine preserves mine-freeness of the knowledge base: the
newly confirmed mine is erased from every sentence. -/
theorem mines_free_mark_mine {ai : MinesweeperAI} (c : Cell)
    (h : KnowledgeMinesFree ai) : KnowledgeMinesFree (ai.mark_mine c) := by
  intro o ho x hx
  rcases List.mem_map.mp ho with ⟨p, hp, rfl⟩
  intro hmem
  rcases Finset.mem_insert.mp hmem with rfl | hx2
  · exact Sentence.not_mem_mark_mine p.s x hx
  · exact h p hp x (Sentence.mark_mine_cells_subset p.s c hx) hx2

/-- Folding engine mark_safe preserves mine-freeness. -/
theorem mines_free_markAllSafe :
    ∀ (cs : List Cell) (ai : MinesweeperAI), KnowledgeMinesFree ai →
      KnowledgeMinesFree (markAllSafe ai cs) := by
  intro cs
  induction cs with
  | nil => intro ai h; exact h
  | cons hd tl ih => intro ai h; exact ih (ai.mark_safe hd) (mines_free_mark_safe hd h)

/-- Folding engine mark_mine preserves mine-freeness. -/
theorem mines_free_markAllMine :
    ∀ (cs : List Cell) (ai : MinesweeperAI), KnowledgeMinesFree ai →
      KnowledgeMinesFree (markAllMine ai cs) := by
  intro cs
  induction cs with
  | nil => intro ai h; exact h
  | cons hd tl ih => intro ai h; exact ih (ai.mark_mine hd) (mines_free_mark_mine hd h)

/-- Count bookkeeping of the neighborhood fold of add_knowledge: starting
from a working count that still owes the true mine count of the unprocessed
neighbors, the fold ends with a truthful pair, because a confirmed mine both
decrements the count and leaves the cell set, a probed cell is no mine, and
any other in-bounds neighbor enters the cell set. -/
theorem buildStep_fold_sound (moves mines : Finset Cell) (h w : Nat)
    (M : Finset Cell) (hmoves : ∀ c ∈ moves, c ∉ M) (hmines : mines ⊆ M) :
    ∀ (l : List Cell) (acc : Finset Cell × Int), l.Nodup →
      (∀ n ∈ l, n ∉ acc.1) →
      acc.2 = ((acc.1 ∩ M).card : Int) +
        ((l.filter (fun n => decide (inBounds h w n ∧ n ∈ M))).length : Int) →
      (l.foldl (buildStep moves mines h w) acc).2 =
        (((l.foldl (buildStep moves mines h w) acc).1 ∩ M).card : Int) := by
  intro l
  induction l with
  | nil => intro acc _ _ hacc; simpa using hacc
  | cons n l ih =>
    intro acc hnd hfresh hacc
    have hn : n ∉ l := (List.nodup_cons.mp hnd).1
    have hnd2 : l.Nodup := (List.nodup_cons.mp hnd).2
    have hfresh0 : n ∉ acc.1 := hfresh n (List.mem_cons_self n l)
    simp only [List.foldl_cons]
    by_cases hb : inBounds h w n
    · by_cases hmm : n ∉ moves ∧ n ∉ mines
      · have hstep : buildStep moves mines h w acc n = (insert n acc.1, acc.2) := by
          simp [buildStep, hb, hmm]
        rw [hstep]
        apply ih (insert n acc.1, acc.2) hnd2
        · intro x hx
          simp only [Finset.mem_insert]
          rintro (rfl | hx2)
          · exact hn hx
          · exact hfresh x (List.mem_cons_of_mem n hx) hx2
        · by_cases hnM : n ∈ M
          · have hfilter :
                (n :: l).filter (fun x => decide (inBounds h w x ∧ x ∈ M)) =
                  n :: l.filter (fun x => decide (inBounds h w x ∧ x ∈ M)) := by
              simp [List.filter_cons, hb, hnM]
            rw [hfilter] at hacc
            have hins : insert n acc.1 ∩ M = insert n (acc.1 ∩ M) :=
              Finset.insert_inter_of_mem hnM
            have hni : n ∉ acc.1 ∩ M := fun hmem => hfresh0 (Finset.mem_inter.mp hmem).1
            simp only [hins, Finset.card_insert_of_not_mem hni, List.length_cons] at *
            push_cast at *
            omega
          · have hfilter :
                (n :: l).filter (fun x => decide (inBounds h w x ∧ x ∈ M)) =
                  l.filter (fun x => decide (inBounds h w x ∧ x ∈ M)) := by
              simp [List.filter_cons, hnM]
            rw [hfilter] at hacc
            have hins : insert n acc.1 ∩ M = acc.1 ∩ M :=
              Finset.insert_inter_of_not_mem hnM
            simpa [hins] using hacc
      · by_cases hm2 : n ∈ mines
        · have hstep : buildStep moves mines h w acc n = (acc.1, acc.2 - 1) := by
            simp [buildStep, hb, hmm, hm2]
          rw [hstep]
          have hnM : n ∈ M := hmines hm2
          apply ih (acc.1, acc.2 - 1) hnd2
          · intro x hx
            exact hfresh x (List.mem_cons_of_mem n hx)
          · have hfilter :
                (n :: l).filter (fun x => decide (inBounds h w x ∧ x ∈ M)) =
                  n :: l.filter (fun x => decide (inBounds h w x ∧ x ∈ M)) := by
              simp [List.filter_cons, hb, hnM]
            rw [hfilter] at hacc
            simp only [List.length_cons] at hacc
            push_cast at *
            omega
        · have hmoves2 : n ∈ moves := by
            rcases not_and_or.mp hmm with hmv | hmn
            · exact not_not.mp hmv
            · exact absurd (not_not.mp hmn) hm2
          have hnM : n ∉ M := hmoves n hmoves2
          have hstep : buildStep moves mines h w acc n = acc := by
            simp [buildStep, hb, hmoves2, hm2]
          rw [hstep]
          apply ih acc hnd2
          · intro x hx
            exact hfresh x (List.mem_cons_of_mem n hx)
          · have hfilter :
                (n :: l).filter (fun x => decide (inBounds h w x ∧ x ∈ M)) =
                  l.filter (fun x => decide (inBounds h w x ∧ x ∈ M)) := by
              simp [List.filter_cons, hnM]
            rw [hfilter] at hacc
            exact hacc
    · have hstep : buildStep moves mines h w acc n = acc := by
        simp [buildStep, hb]
      rw [hstep]
      apply ih acc hnd2
      · intro x hx
        exact hfresh x (List.mem_cons_of_mem n hx)
      · have hfilter :
            (n :: l).filter (fun x => decide (inBounds h w x ∧ x ∈ M)) =
              l.filter (fun x => decide (inBounds h w x ∧ x ∈ M)) := by
          simp [List.filter_cons, hb]
        rw [hfilter] at hacc
        exact hacc

/-- The neighborhood fold never puts a confirmed mine into the cell set. -/
theorem buildStep_fold_mines_free (moves mines : Finset Cell) (h w : Nat) :
    ∀ (l : List Cell) (acc : Finset Cell × Int), (∀ x ∈ acc.1, x ∉ mines) →
      ∀ x ∈ (l.foldl (buildStep moves mines h w) acc).1, x ∉ mines := by
  intro l
  induction l with
  | nil => intro acc hacc; simpa using hacc
  | cons n l ih =>
    intro acc hacc
    simp only [List.foldl_cons]
    apply ih
    intro x hx
    unfold buildStep at hx
    split_ifs at hx with hb hmm hm2
    · rcases Finset.mem_insert.mp hx with rfl | hx2
      · exact hmm.2
      · exact hacc x hx2
    · exact hacc x hx
    · exact hacc x hx
    · exact hacc x hx

/-- The known_safes half of a propagation iteration preserves soundness. -/
theorem step4Safes_sound {h w : Nat} {M : Finset Cell} {ai : MinesweeperAI}
    {o : Tagged} (ho : o ∈ ai.knowledge) (hs : SoundState h w M ai) :
    SoundState h w M (step4Safes ai o) := by
  unfold step4Safes
  cases hks : o.s.known_safes with
  | none => exact hs
  | some cs =>
    by_cases hcs : cs = ∅
    · simpa [hcs] using hs
    · simp only [if_neg hcs]
      refine sound_state_markAllSafe (cellsList cs) ai ?_ hs
      intro c hc
      exact (hs.kb o ho).safes_not_mine hks c (mem_cellsList.mp hc)

/-- The known_mines half of a propagation iteration preserves soundness. -/
theorem step4Mines_sound {h w : Nat} {M : Finset Cell} {ai : MinesweeperAI}
    {o : Tagged} (ho : o ∈ ai.knowledge) (hs : SoundState h w M ai) :
    SoundState h w M (step4Mines ai o) := by
  unfold step4Mines
  cases hks : o.s.known_mines with
  | none => exact hs
  | some cs =>
    by_cases hcs : cs = ∅
    · simpa [hcs] using hs
    · simp only [if_neg hcs]
      refine sound_state_markAllMine (cellsList cs) ai ?_ hs
      intro c hc
      exact (hs.kb o ho).mines_sub hks c (mem_cellsList.mp hc)

/-- The propagation pass preserves soundness. -/
theorem step4Go_sound {h w : Nat} {M : Finset Cell} :
    ∀ (fuel : Nat) (ai : MinesweeperAI) (i : Nat),
      SoundState h w M ai → SoundState h w M (step4Go ai i fuel) := by
  intro fuel
  induction fuel with
  | zero => intro ai i hs; simpa [step4Go] using hs
  | succ fuel ih =>
    intro ai i hs
    rw [step4Go]
    cases hk : ai.knowledge[i]? with
    | none => exact hs
    | some o =>
      simp only
      have hs1 : SoundState h w M (step4Safes ai o) :=
        step4Safes_sound (List.getElem?_mem hk) hs
      cases hk2 : (step4Safes ai o).knowledge[i]? with
      | none => exact hs1
      | some o2 =>
        exact ih (step4Mines (step4Safes ai o) o2) (i + 1)
          (step4Mines_sound (List.getElem?_mem hk2) hs1)

/-- The known_safes half of a propagation iteration preserves mine-freeness. -/
theorem step4Safes_mines_free {ai : MinesweeperAI} {o : Tagged}
    (h : KnowledgeMinesFree ai) : KnowledgeMinesFree (step4Safes ai o) := by
  unfold step4Safes
  cases o.s.known_safes with
  | none => exact h
  | some cs =>
    by_cases hcs : cs = ∅
    · simpa [hcs] using h
    · simpa [hcs] using mines_free_markAllSafe (cellsList cs) ai h

/-- The known_mines half of a propagation iteration preserves mine-freeness. -/
theorem step4Mines_mines_free {ai : MinesweeperAI} {o : Tagged}
    (h : KnowledgeMinesFree ai) : KnowledgeMinesFree (step4Mines ai o) := by
  unfold step4Mines
  cases o.s.known_mines with
  | none => exact h
  | some cs =>
    by_cases hcs : cs = ∅
    · simpa [hcs] using h
    · simpa [hcs] using mines_free_markAllMine (cellsList cs) ai h

/-- The propagation pass preserves mine-freeness. -/
theorem step4Go_mines_free :
    ∀ (fuel : Nat) (ai : MinesweeperAI) (i : Nat),
      KnowledgeMinesFree ai → KnowledgeMinesFree (step4Go ai i fuel) := by
  intro fuel
  induction fuel with
  | zero => intro ai i h; simpa [step4Go] using h
  | succ fuel ih =>
    intro ai i h
    rw [step4Go]
    cases hk : ai.knowledge[i]? with
    | none => exact h
    | some o =>
      simp only
      have h1 : KnowledgeMinesFree (step4Safes ai o) := step4Safes_mines_free h
      cases hk2 : (step4Safes ai o).knowledge[i]? with
      | none => exact h1
      | some o2 =>
        exact ih (step4Mines (step4Safes ai o) o2) (i + 1) (step4Mines_mines_free h1)

/-- The inner subset-resolution scan preserves any sentence predicate that is
closed under forming the derived difference sentence. -/
theorem step5Inner_preserve (P : Sentence → Prop)
    (hder : ∀ a b : Sentence, P a → P b → a.cells ⊆ b.cells →
      P ⟨b.cells \ a.cells, b.count - a.count⟩) :
    ∀ (fuel : Nat) (s1 : Tagged) (kn : List Tagged) (nid j : Nat)
      (kn2 : List Tagged) (nid2 : Nat), P s1.s → (∀ o ∈ kn, P o.s) →
      step5Inner s1 kn nid j fuel = some (kn2, nid2) → ∀ o ∈ kn2, P o.s := by
  intro fuel
  induction fuel with
  | zero => intro s1 kn nid j kn2 nid2 _ _ heq; exact absurd heq (by simp [step5Inner])
  | succ fuel ih =>
    intro s1 kn nid j kn2 nid2 hP hkn heq
    rw [step5Inner] at heq
    cases hk : kn[j]? with
    | none =>
      simp only [hk, Option.some.injEq, Prod.mk.injEq] at heq
      exact heq.1 ▸ hkn
    | some s2 =>
      simp only [hk] at heq
      have hs2 : P s2.s := hkn s2 (List.getElem?_mem hk)
      by_cases htid : s1.tid = s2.tid
      · rw [if_pos htid] at heq
        exact ih s1 kn nid (j + 1) kn2 nid2 hP hkn heq
      · rw [if_neg htid] at heq
        by_cases hseq : s1.s = s2.s
        · rw [if_pos hseq] at heq
          refine ih s1 (removeFirstEq s2.s kn) nid (j + 1) kn2 nid2 hP ?_ heq
          intro o ho
          exact hkn o (removeFirstEq_subset ho)
        · rw [if_neg hseq] at heq
          by_cases hsub : s1.s.cells ⊆ s2.s.cells
          · rw [if_pos hsub] at heq
            by_cases hcont : containsSentence kn
                ⟨s2.s.cells \ s1.s.cells, s2.s.count - s1.s.count⟩ = true
            · rw [if_pos hcont] at heq
              exact ih s1 kn nid (j + 1) kn2 nid2 hP hkn heq
            · rw [if_neg hcont] at heq
              refine ih s1 (kn ++ [⟨nid, ⟨s2.s.cells \ s1.s.cells,
                s2.s.count - s1.s.count⟩⟩]) (nid + 1) (j + 1) kn2 nid2 hP ?_ heq
              intro o ho
              rcases List.mem_append.mp ho with ho1 | ho2
              · exact hkn o ho1
              · have : o = ⟨nid, ⟨s2.s.cells \ s1.s.cells,
                    s2.s.count - s1.s.count⟩⟩ := List.mem_singleton.mp ho2
                rw [this]
                exact hder s1.s s2.s hP hs2 hsub
          · rw [if_neg hsub] at heq
            exact ih s1 kn nid (j + 1) kn2 nid2 hP hkn heq

/-- The outer subset-resolution scan preserves any sentence predicate that is
closed under forming the derived difference sentence. -/
theorem step5Outer_preserve (P : Sentence → Prop)
    (hder : ∀ a b : Sentence, P a → P b → a.cells ⊆ b.cells →
      P ⟨b.cells \ a.cells, b.count - a.count⟩) :
    ∀ (fuel : Nat) (kn : List Tagged) (nid i : Nat)
      (kn2 : List Tagged) (nid2 : Nat), (∀ o ∈ kn, P o.s) →
      step5Outer kn nid i fuel = some (kn2, nid2) → ∀ o ∈ kn2, P o.s := by
  intro fuel
  induction fuel with
  | zero => intro kn nid i kn2 nid2 _ heq; exact absurd heq (by simp [step5Outer])
  | succ fuel ih =>
    intro kn nid i kn2 nid2 hkn heq
    rw [step5Outer] at heq
    cases hk : kn[i]? with
    | none =>
      simp only [hk, Option.some.injEq, Prod.mk.injEq] at heq
      exact heq.1 ▸ hkn
    | some s1 =>
      simp only [hk] at heq
      have hP : P s1.s := hkn s1 (List.getElem?_mem hk)
      cases hinner : step5Inner s1 kn nid 0 fuel with
      | none => exact absurd heq (by simp [hinner])
      | some r =>
        simp only [hinner] at heq
        exact ih r.1 r.2 (i + 1) kn2 nid2
          (step5Inner_preserve P hder fuel s1 kn nid 0 r.1 r.2 hP hkn
            (by rw [hinner]))
          heq

/-- Recording a truly safe probe preserves soundness. -/
theorem ingestRecord_sound {h w : Nat} {M : Finset Cell} {ai : MinesweeperAI}
    {cell : Cell} (hcM : cell ∉ M) (hs : SoundState h w M ai) :
    SoundState h w M (ingestRecord ai cell) := by
  unfold ingestRecord
  refine sound_state_mark_safe cell hcM
    ⟨hs.height_eq, hs.width_eq, hs.kb, hs.mines_sub, hs.safes_not, ?_⟩
  intro c hc
  rcases Finset.mem_insert.mp hc with rfl | hc2
  · exact hcM
  · exact hs.moves_not c hc2

/-- Appending the neighborhood sentence with the true neighbor-mine count
preserves soundness. -/
theorem ingestAppend_sound {h w : Nat} {M : Finset Cell} {ai : MinesweeperAI}
    {cell : Cell} (hs : SoundState h w M ai) :
    SoundState h w M (ingestAppend ai cell (nearby_mines h w M cell)) := by
  refine ⟨hs.height_eq, hs.width_eq, ?_, hs.mines_sub, hs.safes_not, hs.moves_not⟩
  intro o ho
  rcases List.mem_append.mp ho with ho1 | ho2
  · exact hs.kb o ho1
  · have : o = ⟨ai.nextId, buildSentence ai cell (nearby_mines h w M cell)⟩ :=
      List.mem_singleton.mp ho2
    rw [this]
    show SentenceSound M (buildSentence ai cell (nearby_mines h w M cell))
    unfold SentenceSound buildSentence
    refine buildStep_fold_sound ai.moves_made ai.mines ai.height ai.width M
      hs.moves_not hs.mines_sub (neighborsList cell)
      (∅, nearby_mines h w M cell) (neighborsList_nodup cell) (by simp) ?_
    rw [hs.height_eq, hs.width_eq]
    simp [nearby_mines]

/-- The subset-resolution pass preserves soundness. -/
theorem ingestResolve_sound {h w : Nat} {M : Finset Cell} {ai ai2 : MinesweeperAI}
    {fuel : Nat} (hs : SoundState h w M ai)
    (heq : ingestResolve ai fuel = some ai2) : SoundState h w M ai2 := by
  unfold ingestResolve at heq
  cases hout : step5Outer ai.knowledge ai.nextId 0 fuel with
  | none => rw [hout] at heq; exact absurd heq (by simp)
  | some r =>
    rw [hout] at heq
    simp only [Option.some.injEq] at heq
    subst heq
    refine ⟨hs.height_eq, hs.width_eq, ?_, hs.mines_sub, hs.safes_not, hs.moves_not⟩
    intro o ho
    exact step5Outer_preserve (SentenceSound M)
      (fun a b ha hb hsub => SentenceSound.derived ha hb hsub)
      fuel ai.knowledge ai.nextId 0 r.1 r.2 hs.kb (by rw [hout]) o ho

/-- A full contract-respecting add_knowledge call preserves soundness. -/
theorem add_knowledge_sound {h w : Nat} {M : Finset Cell} {ai ai2 : MinesweeperAI}
    {cell : Cell} {fuel : Nat} (hcM : cell ∉ M) (hs : SoundState h w M ai)
    (heq : ai.add_knowledge cell (nearby_mines h w M cell) fuel = some ai2) :
    SoundState h w M ai2 := by
  unfold MinesweeperAI.add_knowledge at heq
  exact ingestResolve_sound
    (step4Go_sound _ _ 0 (ingestAppend_sound (ingestRecord_sound hcM hs)))
    heq

/-- The fresh engine is sound. -/
theorem start_sound (h w : Nat) (M : Finset Cell) :
    SoundState h w M (MinesweeperAI.start h w) := by
  refine ⟨rfl, rfl, ?_, ?_, ?_, ?_⟩ <;> simp [MinesweeperAI.start]

/-- Every state reachable by the caller contract is sound. -/
theorem Reachable.sound {h w : Nat} {M : Finset Cell} {ai : MinesweeperAI}
    (hr : Reachable h w M ai) : SoundState h w M ai := by
  induction hr with
  | start => exact start_sound h w M
  | ingest _ _ _ hcM heq ih => exact add_knowledge_sound hcM ih heq
  | mark_mine _ hc ih => exact sound_state_mark_mine _ hc ih
  | mark_safe _ hc ih => exact sound_state_mark_safe _ hc ih

/-- Ingest-only reachability implies full reachability. -/
theorem ReachableIngest.toReachable {h w : Nat} {M : Finset Cell}
    {ai : MinesweeperAI} (hr : ReachableIngest h w M ai) : Reachable h w M ai := by
  induction hr with
  | start => exact Reachable.start
  | ingest _ hb hm hcM heq ih => exact Reachable.ingest ih hb hm hcM heq

/-- Recording a probe preserves mine-freeness of the knowledge base. -/
theorem ingestRecord_mines_free {ai : MinesweeperAI} {cell : Cell}
    (h : KnowledgeMinesFree ai) : KnowledgeMinesFree (ingestRecord ai cell) := by
  unfold ingestRecord
  exact mines_free_mark_safe cell h

/-- Appending the neighborhood sentence preserves mine-freeness: the builder
filters confirmed mines out of the new cell set. -/
theorem ingestAppend_mines_free {ai : MinesweeperAI} {cell : Cell} {count : Int}
    (h : KnowledgeMinesFree ai) : KnowledgeMinesFree (ingestAppend ai cell count) := by
  intro o ho x hx
  rcases List.mem_append.mp ho with ho1 | ho2
  · exact h o ho1 x hx
  · have hoeq : o = ⟨ai.nextId, buildSentence ai cell count⟩ := List.mem_singleton.mp ho2
    rw [hoeq] at hx
    exact buildStep_fold_mines_free ai.moves_made ai.mines ai.height ai.width
      (neighborsList cell) (∅, count) (by simp) x hx

/-- The subset-resolution pass preserves mine-freeness. -/
theorem ingestResolve_mines_free {ai ai2 : MinesweeperAI} {fuel : Nat}
    (h : KnowledgeMinesFree ai) (heq : ingestResolve ai fuel = some ai2) :
    KnowledgeMinesFree ai2 := by
  unfold ingestResolve at heq
  cases hout : step5Outer ai.knowledge ai.nextId 0 fuel with
  | none => rw [hout] at heq; exact absurd heq (by simp)
  | some r =>
    rw [hout] at heq
    simp only [Option.some.injEq] at heq
    subst heq
    intro o ho
    exact step5Outer_preserve (fun s => ∀ c ∈ s.cells, c ∉ ai.mines)
      (fun a b _ hb hsub c hc => hb c (Finset.mem_sdiff.mp hc).1)
      fuel ai.knowledge ai.nextId 0 r.1 r.2 h (by rw [hout]) o ho

/-- Any add_knowledge call, with any count, preserves mine-freeness. -/
theorem add_knowledge_mines_free {ai ai2 : MinesweeperAI} {cell : Cell}
    {count : Int} {fuel : Nat} (h : KnowledgeMinesFree ai)
    (heq : ai.add_knowledge cell count fuel = some ai2) :
    KnowledgeMinesFree ai2 := by
  unfold MinesweeperAI.add_knowledge at heq
  exact ingestResolve_mines_free
    (step4Go_mines_free _ _ 0 (ingestAppend_mines_free (ingestRecord_mines_free h)))
    heq

/-- Every state reachable by contract-respecting ingest calls has a
mine-free knowledge base. -/
theorem ReachableIngest.mines_free {h w : Nat} {M : Finset Cell}
    {ai : MinesweeperAI} (hr : ReachableIngest h w M ai) :
    KnowledgeMinesFree ai := by
  induction hr with
  | start => intro o ho; exact absurd ho (by simp [MinesweeperAI.start])
  | ingest _ _ _ _ heq ih => exact add_knowledge_mines_free ih heq

/-- The one-probe 3×3 witness state is reachable under the caller contract. -/
theorem wit1st_reachable : ReachableIngest 3 3 wit1board wit1st :=
  @ReachableIngest.ingest 3 3 wit1board (MinesweeperAI.start 3 3) wit1st (0, 0) 100
    ReachableIngest.start (by decide) (by decide) (by decide) (by decide)

/-- The one-probe 1×2 witness state is reachable under the caller contract. -/
theorem wit2st_reachable : ReachableIngest 1 2 {((0:Int), (1:Int))} wit2st :=
  @ReachableIngest.ingest 1 2 {((0:Int), (1:Int))} (MinesweeperAI.start 1 2) wit2st
    (0, 0) 100 ReachableIngest.start (by decide) (by decide) (by decide) (by decide)

/-- C3: in every state reachable from a fresh engine by contract-respecting
ingest, global mark_mine and global mark_safe calls, every sentence of the
knowledge base satisfies `0 <= count <= |cells|`. -/
theorem sentence_counts_bounded (height width : Nat) (M : Finset Cell)
    (ai : MinesweeperAI) (h : Reachable height width M ai) :
    ∀ o ∈ ai.knowledge, 0 ≤ o.s.count ∧ o.s.count ≤ (o.s.cells.card : Int) := by
  intro o ho
  have hks := h.sound.kb o ho
  unfold SentenceSound at hks
  have hle : (o.s.cells ∩ M).card ≤ o.s.cells.card :=
    Finset.card_le_card Finset.inter_subset_left
  omega

/-- Witness for C3 at the reachable one-probe state on the 3×3 board with a
mine at (1,1): its single sentence has count 1 and three cells. -/
theorem sentence_counts_bounded_witness :
    0 ≤ (Tagged.mk 0 (Sentence.mk {((0:Int), (1:Int)), ((1:Int), (0:Int)),
        ((1:Int), (1:Int))} 1)).s.count ∧
    (Tagged.mk 0 (Sentence.mk {((0:Int), (1:Int)), ((1:Int), (0:Int)),
        ((1:Int), (1:Int))} 1)).s.count ≤
      ((Tagged.mk 0 (Sentence.mk {((0:Int), (1:Int)), ((1:Int), (0:Int)),
        ((1:Int), (1:Int))} 1)).s.cells.card : Int) :=
  sentence_counts_bounded 3 3 wit1board wit1st
    (ReachableIngest.toReachable wit1st_reachable)
    (Tagged.mk 0 (Sentence.mk {((0:Int), (1:Int)), ((1:Int), (0:Int)),
      ((1:Int), (1:Int))} 1)) (by decide)

/-- C5: in every state reachable from a fresh engine by contract-respecting
ingest calls, the confirmed-mine and confirmed-safe sets are disjoint. -/
theorem mines_disjoint_safes (height width : Nat) (M : Finset Cell)
    (ai : MinesweeperAI) (h : ReachableIngest height width M ai) :
    Disjoint ai.mines ai.safes := by
  have hs := h.toReachable.sound
  refine Finset.disjoint_left.mpr ?_
  intro c hc hcs
  exact hs.safes_not c hcs (hs.mines_sub hc)

/-- Witness for C5 at the reachable one-probe state on the 1×2 board, whose
confirmed-mine and confirmed-safe sets are both nonempty. -/
theorem mines_disjoint_safes_witness : Disjoint wit2st.mines wit2st.safes :=
  mines_disjoint_safes 1 2 {((0:Int), (1:Int))} wit2st wit2st_reachable

/-- C4 amended: in every state reachable from a fresh engine by
contract-respecting ingest calls, no sentence of the knowledge base contains
a cell of the confirmed-mine set (the confirmed-safe half of the original
claim fails, see the counterexample). -/
theorem sentences_exclude_confirmed_mines (height width : Nat) (M : Finset Cell)
    (ai : MinesweeperAI) (h : ReachableIngest height width M ai) :
    ∀ o ∈ ai.knowledge, ∀ c ∈ o.s.cells, c ∉ ai.mines :=
  h.mines_free

/-- Witness for the amended C4 at the reachable one-probe state on the 3×3
board: the cell (0,1) of its single sentence is not a confirmed mine. -/
theorem sentences_exclude_confirmed_mines_witness :
    ((0:Int), (1:Int)) ∉ wit1st.mines :=
  sentences_exclude_confirmed_mines 3 3 wit1board wit1st wit1st_reachable
    (Tagged.mk 0 (Sentence.mk {((0:Int), (1:Int)), ((1:Int), (0:Int)),
      ((1:Int), (1:Int))} 1)) (by decide) (0, 1) (by decide)

/-- First-match removal never increases the multiplicity of any sentence. -/
theorem removeFirstEq_count_le (s : Sentence) (kn : List Tagged) (v : Sentence) :
    ((removeFirstEq s kn).map Tagged.s).count v ≤ (kn.map Tagged.s).count v :=
  List.Sublist.count_le (List.Sublist.map Tagged.s (removeFirstEq_sublist s kn)) v

/-- A sentence reported absent by the structural membership test is not a
value of the sentence list. -/
theorem containsSentence_false {kn : List Tagged} {s : Sentence}
    (h : containsSentence kn s = false) : s ∉ kn.map Tagged.s := by
  intro hmem
  rcases List.mem_map.mp hmem with ⟨o, ho, rfl⟩
  have hany : kn.any (fun p => p.s == o.s) = true :=
    List.any_eq_true.mpr ⟨o, ho, by simp⟩
  unfold containsSentence at h
  rw [hany] at h
  cases h

/-- The inner subset-resolution scan never raises the multiplicity of a
sentence above one: it only appends sentences that are structurally absent. -/
theorem step5Inner_count (v : Sentence) :
    ∀ (fuel : Nat) (s1 : Tagged) (kn : List Tagged) (nid j : Nat)
      (kn2 : List Tagged) (nid2 : Nat),
      step5Inner s1 kn nid j fuel = some (kn2, nid2) →
      (kn2.map Tagged.s).count v ≤ max ((kn.map Tagged.s).count v) 1 := by
  intro fuel
  induction fuel with
  | zero => intro s1 kn nid j kn2 nid2 heq; exact absurd heq (by simp [step5Inner])
  | succ fuel ih =>
    intro s1 kn nid j kn2 nid2 heq
    rw [step5Inner] at heq
    cases hk : kn[j]? with
    | none =>
      simp only [hk, Option.some.injEq, Prod.mk.injEq] at heq
      exact heq.1 ▸ le_max_left _ _
    | some s2 =>
      simp only [hk] at heq
      by_cases htid : s1.tid = s2.tid
      · rw [if_pos htid] at heq
        exact ih s1 kn nid (j + 1) kn2 nid2 heq
      · rw [if_neg htid] at heq
        by_cases hseq : s1.s = s2.s
        · rw [if_pos hseq] at heq
          refine le_trans (ih s1 (removeFirstEq s2.s kn) nid (j + 1) kn2 nid2 heq) ?_
          exact max_le_max (removeFirstEq_count_le s2.s kn v) le_rfl
        · rw [if_neg hseq] at heq
          by_cases hsub : s1.s.cells ⊆ s2.s.cells
          · rw [if_pos hsub] at heq
            by_cases hcont : containsSentence kn
                ⟨s2.s.cells \ s1.s.cells, s2.s.count - s1.s.count⟩ = true
            · rw [if_pos hcont] at heq
              exact ih s1 kn nid (j + 1) kn2 nid2 heq
            · rw [if_neg hcont] at heq
              refine le_trans (ih s1 (kn ++ [⟨nid, ⟨s2.s.cells \ s1.s.cells,
                s2.s.count - s1.s.count⟩⟩]) (nid + 1) (j + 1) kn2 nid2 heq) ?_
              have hnotin : (⟨s2.s.cells \ s1.s.cells, s2.s.count - s1.s.count⟩ :
                  Sentence) ∉ kn.map Tagged.s :=
                containsSentence_false (Bool.not_eq_true _ ▸ hcont)
              rw [List.map_append, List.count_append]
              by_cases hv : v = ⟨s2.s.cells \ s1.s.cells, s2.s.count - s1.s.count⟩
              · have hzero : (kn.map Tagged.s).count v = 0 :=
                  List.count_eq_zero.mpr (hv ▸ hnotin)
                have hone : (([⟨nid, ⟨s2.s.cells \ s1.s.cells,
                    s2.s.count - s1.s.count⟩⟩] : List Tagged).map Tagged.s).count v = 1 := by
                  simp [hv]
                rw [hzero, hone]
                exact le_max_right _ _
              · have hone : (([⟨nid, ⟨s2.s.cells \ s1.s.cells,
                    s2.s.count - s1.s.count⟩⟩] : List Tagged).map Tagged.s).count v = 0 := by
                  simp [hv]
                rw [hone]
                simp
          · rw [if_neg hsub] at heq
            exact ih s1 kn nid (j + 1) kn2 nid2 heq

/-- The outer subset-resolution scan never raises the multiplicity of a
sentence above one. -/
theorem step5Outer_count (v : Sentence) :
    ∀ (fuel : Nat) (kn : List Tagged) (nid i : Nat)
      (kn2 : List Tagged) (nid2 : Nat),
      step5Outer kn nid i fuel = some (kn2, nid2) →
      (kn2.map Tagged.s).count v ≤ max ((kn.map Tagged.s).count v) 1 := by
  intro fuel
  induction fuel with
  | zero => intro kn nid i kn2 nid2 heq; exact absurd heq (by simp [step5Outer])
  | succ fuel ih =>
    intro kn nid i kn2 nid2 heq
    rw [step5Outer] at heq
    cases hk : kn[i]? with
    | none =>
      simp only [hk, Option.some.injEq, Prod.mk.injEq] at heq
      exact heq.1 ▸ le_max_left _ _
    | some s1 =>
      simp only [hk] at heq
      cases hinner : step5Inner s1 kn nid 0 fuel with
      | none => exact absurd heq (by simp [hinner])
      | some r =>
        simp only [hinner] at heq
        calc (kn2.map Tagged.s).count v
            ≤ max ((r.1.map Tagged.s).count v) 1 := ih r.1 r.2 (i + 1) kn2 nid2 heq
          _ ≤ max (max ((kn.map Tagged.s).count v) 1) 1 :=
              max_le_max (step5Inner_count v fuel s1 kn nid 0 r.1 r.2 (by rw [hinner]))
                le_rfl
          _ = max ((kn.map Tagged.s).count v) 1 := by rw [max_assoc, max_self]

/-- C6 amended: the subset-resolution pass never introduces a duplicate: at
its end, the multiplicity of every sentence value in the knowledge base is
at most the larger of its multiplicity before the pass and one.  At most one
representative per class is not guaranteed, see the counterexample. -/
theorem resolution_pass_adds_no_duplicates (kn : List Tagged) (nid i fuel : Nat)
    (kn2 : List Tagged) (nid2 : Nat)
    (h : step5Outer kn nid i fuel = some (kn2, nid2)) (v : Sentence) :
    (kn2.map Tagged.s).count v ≤ max ((kn.map Tagged.s).count v) 1 :=
  step5Outer_count v fuel kn nid i kn2 nid2 h

/-- Witness for the amended C6 on a concrete two-element list holding the
same sentence twice: the pass removes one copy and the bound holds. -/
theorem resolution_pass_adds_no_duplicates_witness :
    (([Tagged.mk 1 (Sentence.mk ∅ 0)] : List Tagged).map Tagged.s).count
        (Sentence.mk ∅ 0) ≤
      max ((([Tagged.mk 0 (Sentence.mk ∅ 0), Tagged.mk 1 (Sentence.mk ∅ 0)] :
        List Tagged).map Tagged.s).count (Sentence.mk ∅ 0)) 1 :=
  resolution_pass_adds_no_duplicates
    [Tagged.mk 0 (Sentence.mk ∅ 0), Tagged.mk 1 (Sentence.mk ∅ 0)] 2 0 10
    [Tagged.mk 1 (Sentence.mk ∅ 0)] 2 (by decide) (Sentence.mk ∅ 0)

/-- Any cell returned by the rejection-sampling loop is in bounds, not a
made move, and not a confirmed mine. -/
theorem randomLoop_valid {ai : MinesweeperAI} {rand : Nat → Nat × Nat} :
    ∀ (fuel k : Nat) (c : Cell), randomLoop ai rand k fuel = some c →
      inBounds ai.height ai.width c ∧ c ∉ ai.moves_made ∧ c ∉ ai.mines := by
  intro fuel
  induction fuel with
  | zero => intro k c h; exact absurd h (by simp [randomLoop])
  | succ fuel ih =>
    intro k c h
    rw [randomLoop] at h
    by_cases hz : ai.height = 0 ∨ ai.width = 0
    · rw [if_pos hz] at h
      cases h
    · rw [if_neg hz] at h
      push_neg at hz
      by_cases hcond : sampledCell ai rand k ∉ ai.moves_made ∧
          sampledCell ai rand k ∉ ai.mines
      · rw [if_pos hcond] at h
        have hc : sampledCell ai rand k = c := Option.some.inj h
        subst hc
        refine ⟨?_, hcond⟩
        unfold sampledCell
        have h1 : (rand k).1 % ai.height < ai.height :=
          Nat.mod_lt _ (Nat.pos_of_ne_zero hz.1)
        have h2 : (rand k).2 % ai.width < ai.width :=
          Nat.mod_lt _ (Nat.pos_of_ne_zero hz.2)
        refine ⟨?_, ?_, ?_, ?_⟩ <;> simp <;> omega
      · rw [if_neg hcond] at h
        exact ih (k + 1) c h

/-- C8: make_random_move reports "none available" exactly when the count of
confirmed mines plus the count of made moves equals the board area, and any
cell it returns is in bounds, not a made move, and not a confirmed mine. -/
theorem random_move_spec (ai : MinesweeperAI) (rand : Nat → Nat × Nat) (fuel : Nat) :
    ((ai.make_random_move rand fuel).1 = some none ↔
      ai.mines.card + ai.moves_made.card = ai.height * ai.width) ∧
    (∀ c : Cell, (ai.make_random_move rand fuel).1 = some (some c) →
      inBounds ai.height ai.width c ∧ c ∉ ai.moves_made ∧ c ∉ ai.mines) := by
  unfold MinesweeperAI.make_random_move
  by_cases hg : ai.mines.card + ai.moves_made.card = ai.height * ai.width
  · simp only [if_pos hg]
    constructor
    · exact iff_of_true trivial hg
    · intro c hc
      cases hc
  · simp only [if_neg hg]
    cases hr : randomLoop ai rand 0 fuel with
    | none =>
      simp only [hr]
      constructor
      · exact iff_of_false (by simp) hg
      · intro c hc
        cases hc
    | some c0 =>
      simp only [hr]
      constructor
      · exact iff_of_false (by simp) hg
      · intro c hc
        have hcc : c0 = c := by
          have := Option.some.inj hc
          exact Option.some.inj this
        exact hcc ▸ randomLoop_valid fuel 0 c0 hr

/-- Witness for C8 on the fresh 1×1 engine: the sampler returns the only
cell, which is in bounds and in neither confirmed set. -/
theorem random_move_spec_witness :
    inBounds (MinesweeperAI.start 1 1).height (MinesweeperAI.start 1 1).width
        ((0:Int), (0:Int)) ∧
      ((0:Int), (0:Int)) ∉ (MinesweeperAI.start 1 1).moves_made ∧
      ((0:Int), (0:Int)) ∉ (MinesweeperAI.start 1 1).mines :=
  (random_move_spec (MinesweeperAI.start 1 1) (fun _ => (0, 0)) 1).2
    (0, 0) (by decide)
